import Mathlib

/-!
Verification of the Agent Memory Service (identity, recovery codec,
signature-gated versioned memory store).

The repository ships the service's client (`test_agent.py`) and its test
suite (`tests/test_main.py`); the server module those tests import is not
among the sources, so the server-side operations are modelled from the
specification (each such definition says so in its doc comment).  The
canonical signed messages, the agent-id derivation and the response field
names are taken from the client and test sources directly.

Machine bytes are modelled as `Nat` values below 256; byte strings as
`List Nat`.  The SHA-256 digest and the Ed25519 public-key derivation are
cryptographic primitives from third-party libraries and are abstracted as
explicit function parameters; nothing proved here depends on their
internals.
-/

namespace AgentMemory

/-- Little-endian digit expansion of a number in base `b`, at fixed width
`w`.  This models the positional decompositions used by the recovery
codec: bytes (base 256) and 11-bit word-group indices (base 2048). -/
def natToDigitsLE (b : Nat) : Nat → Nat → List Nat
  | 0, _ => []
  | w + 1, n => n % b :: natToDigitsLE b w (n / b)

/-- Value of a little-endian digit list in base `b`. -/
def digitsFromLE (b : Nat) : List Nat → Nat
  | [] => 0
  | d :: ds => d + b * digitsFromLE b ds

/-- Modelled from the spec: the Recovery Codec word-count table of the
standard mnemonic scheme (the `mnemonic` library used by the client and the
tests is not part of the repository sources).  Maps a phrase word count to
the entropy width in bytes that it encodes. -/
def entBytesOfWordCount (w : Nat) : Option Nat :=
  if w = 12 then some 16
  else if w = 15 then some 20
  else if w = 18 then some 24
  else if w = 21 then some 28
  else if w = 24 then some 32
  else none

/-- Modelled from the spec: inverse of `entBytesOfWordCount`; the seed byte
widths the codec accepts, mapped to the phrase word count produced. -/
def wordCountOfEntBytes (k : Nat) : Option Nat :=
  if k = 16 then some 12
  else if k = 20 then some 15
  else if k = 24 then some 18
  else if k = 28 then some 21
  else if k = 32 then some 24
  else none

/-- Checksum bit length for an entropy of `k` bytes: ENT/32 bits. -/
def csBits (k : Nat) : Nat := k * 8 / 32

/-- Big-endian value of a byte string. -/
def bytesToNat (bs : List Nat) : Nat := digitsFromLE 256 bs.reverse

/-- Big-endian byte string of fixed width `k` for a value. -/
def natToBytes (k n : Nat) : List Nat := (natToDigitsLE 256 k n).reverse

/-- Modelled from the spec: Recovery Codec `encode`.  The seed bits are
concatenated with ENT/32 checksum bits drawn from a digest of the seed and
split into 11-bit groups, each an index into the 2048-word dictionary; a
phrase is the list of those indices.  `csFun` abstracts the SHA-256 digest
that supplies the checksum bits (reduced modulo the checksum width). -/
def encodeMnemonic (csFun : List Nat → Nat) (seed : List Nat) : Option (List Nat) :=
  match wordCountOfEntBytes seed.length with
  | none => none
  | some w =>
    some ((natToDigitsLE 2048 w
      (bytesToNat seed * 2 ^ csBits seed.length + csFun seed % 2 ^ csBits seed.length)).reverse)

/-- Modelled from the spec: Recovery Codec `decode`.  Fails (`none`) if the
word count matches no valid encoding length, if any index is outside the
dictionary, or if the embedded checksum does not match the digest of the
recovered seed; otherwise returns the seed bytes. -/
def decodeMnemonic (csFun : List Nat → Nat) (phrase : List Nat) : Option (List Nat) :=
  match entBytesOfWordCount phrase.length with
  | none => none
  | some k =>
    if phrase.all (fun d => decide (d < 2048)) then
      let m := digitsFromLE 2048 phrase.reverse
      let seed := natToBytes k (m / 2 ^ csBits k)
      if m % 2 ^ csBits k = csFun seed % 2 ^ csBits k then some seed else none
    else none

/-- Modelled from the library behavior the client relies on:
`Ed25519PrivateKey.from_private_bytes` accepts exactly 32 bytes and fails
otherwise; the reconstructed key object is identified with its seed. -/
def edFromPrivateBytes (bs : List Nat) : Option (List Nat) :=
  if bs.length = 32 then some bs else none

/-- Signed-operation kinds of the service. -/
inductive OpKind where
  | store
  | retrieve
  | delete
deriving DecidableEq

/-- The canonical message for an operation and nonce: the operation tag, a
colon, then the nonce (content digest for store, timestamp otherwise), as
built by the client in `test_agent.py` and by the tests. -/
def canonicalMessage : OpKind → String → String
  | .store, nonce => "store:" ++ nonce
  | .retrieve, nonce => "retrieve:" ++ nonce
  | .delete, nonce => "delete:" ++ nonce

/-- Message signed by the client for a store, from `test_agent.py`:
"store:" followed by the hex digest of the encrypted payload. -/
def clientStoreMessage (dataHash : String) : String := "store:" ++ dataHash

/-- Message signed by the client for retrieve (and, per the tests, also for
history): "retrieve:" followed by the request timestamp. -/
def clientRetrieveMessage (timestamp : String) : String := "retrieve:" ++ timestamp

/-- Message signed by the client for clear, from `tests/test_main.py`:
"delete:" followed by the request timestamp. -/
def clientDeleteMessage (timestamp : String) : String := "delete:" ++ timestamp

/-- A symbolic Ed25519 signature: the signing seed paired with the signed
message. -/
def signMsg (priv : List Nat) (msg : String) : List Nat × String := (priv, msg)

/-- Symbolic signature verification against a stored public key: the
signature verifies exactly when it was produced by the seed of that public
key (`pubOf` abstracts Ed25519 public-key derivation) over exactly the
given message. -/
def verifySig (pubOf : List Nat → List Nat) (pk : List Nat) (msg : String)
    (sig : List Nat × String) : Bool :=
  pubOf sig.1 == pk && sig.2 == msg

/-- One versioned snapshot of an agent's stored blob. -/
structure MemoryRecord where
  agent_id : String
  version : Nat
  encrypted_data : String
  stored_at : Nat
deriving DecidableEq

/-- Server state: the Agent Directory (agent id to public key) and the
Memory Ledger (all MemoryRecords, in insertion order). -/
structure ServerState where
  directory : List (String × List Nat)
  ledger : List MemoryRecord
deriving DecidableEq

/-- Agent Directory lookup: the public key registered for an agent id. -/
def lookupKey (s : ServerState) (aid : String) : Option (List Nat) :=
  (s.directory.find? (fun p => p.1 == aid)).map (fun p => p.2)

/-- Agent Directory reverse lookup, used by recovery to match a rederived
public key against a registered identity. -/
def findByPublicKey (s : ServerState) (pub : List Nat) : Option String :=
  (s.directory.find? (fun p => p.2 == pub)).map (fun p => p.1)

/-- All MemoryRecords of one agent, in ledger order. -/
def agentRecords (s : ServerState) (aid : String) : List MemoryRecord :=
  s.ledger.filter (fun r => r.agent_id == aid)

/-- The version numbers of one agent's records, in ledger order. -/
def versionsOf (s : ServerState) (aid : String) : List Nat :=
  (agentRecords s aid).map (fun r => r.version)

/-- The maximum version stored for an agent (0 when it has no records). -/
def maxVersion (s : ServerState) (aid : String) : Nat :=
  (versionsOf s aid).foldr max 0

/-- Failure outcomes of the service operations. -/
inductive ApiError where
  | agentNotFound
  | invalidSignature
  | invalidPhrase
  | staleTimestamp
  | directoryCollision
deriving DecidableEq

/-- Modelled from the spec: the replay policy.  A timestamp nonce is
accepted only if it parses as a valid point in time (`parseTs`) lying
within `window` of the server's current time `now`. -/
def freshOk (parseTs : String → Option Nat) (window now : Nat) (ts : String) : Bool :=
  match parseTs ts with
  | none => false
  | some t => decide (now ≤ t + window) && decide (t ≤ now + window)

/-- Modelled from the spec: Memory Ledger `store`.  The directory is
consulted first (unknown agent is a not-found outcome); the signature must
cover "store:" plus the digest (`hashFun`) of the payload; on success a
record with version max+1 is appended and the new version returned. -/
def storeOp (pubOf : List Nat → List Nat) (hashFun : String → String) (now : Nat)
    (s : ServerState) (aid data : String) (sig : List Nat × String) :
    Except ApiError (ServerState × Nat) :=
  match lookupKey s aid with
  | none => .error .agentNotFound
  | some pk =>
    if verifySig pubOf pk (canonicalMessage .store (hashFun data)) sig then
      .ok ({ s with ledger := s.ledger ++ [⟨aid, maxVersion s aid + 1, data, now⟩] },
        maxVersion s aid + 1)
    else .error .invalidSignature

/-- The record with the maximum version in a list (none when empty). -/
def latestRecord : List MemoryRecord → Option MemoryRecord
  | [] => none
  | r :: rs =>
    match latestRecord rs with
    | none => some r
    | some m => if m.version < r.version then some r else some m

/-- Modelled from the spec: Memory Ledger `retrieve_latest`.  Directory
lookup, then signature over "retrieve:" plus the timestamp, then the replay
window; on success the maximum-version record, or `none` as the
empty-result indicator for an agent that never stored anything. -/
def retrieveOp (pubOf : List Nat → List Nat) (parseTs : String → Option Nat)
    (window now : Nat) (s : ServerState) (aid : String) (sig : List Nat × String)
    (ts : String) : Except ApiError (Option MemoryRecord) :=
  match lookupKey s aid with
  | none => .error .agentNotFound
  | some pk =>
    if verifySig pubOf pk (canonicalMessage .retrieve ts) sig then
      if freshOk parseTs window now ts then .ok (latestRecord (agentRecords s aid))
      else .error .staleTimestamp
    else .error .invalidSignature

/-- Insertion into a list sorted by ascending version. -/
def insertByVersion (r : MemoryRecord) : List MemoryRecord → List MemoryRecord
  | [] => [r]
  | x :: xs => if r.version ≤ x.version then r :: x :: xs else x :: insertByVersion r xs

/-- Sort by ascending version (insertion sort). -/
def sortByVersion : List MemoryRecord → List MemoryRecord
  | [] => []
  | x :: xs => insertByVersion x (sortByVersion xs)

/-- Modelled from the spec: Memory Ledger `history`.  Same authentication
scheme as retrieve (identical canonical message); returns all of the
agent's records ordered by ascending version, plus their count. -/
def historyOp (pubOf : List Nat → List Nat) (parseTs : String → Option Nat)
    (window now : Nat) (s : ServerState) (aid : String) (sig : List Nat × String)
    (ts : String) : Except ApiError (Nat × List MemoryRecord) :=
  match lookupKey s aid with
  | none => .error .agentNotFound
  | some pk =>
    if verifySig pubOf pk (canonicalMessage .retrieve ts) sig then
      if freshOk parseTs window now ts then
        .ok ((sortByVersion (agentRecords s aid)).length, sortByVersion (agentRecords s aid))
      else .error .staleTimestamp
    else .error .invalidSignature

/-- Modelled from the spec: Memory Ledger `clear`.  Signature over
"delete:" plus the timestamp; on success deletes all of the agent's
records, reporting how many, and leaves the directory untouched. -/
def clearOp (pubOf : List Nat → List Nat) (parseTs : String → Option Nat)
    (window now : Nat) (s : ServerState) (aid : String) (sig : List Nat × String)
    (ts : String) : Except ApiError (ServerState × Nat) :=
  match lookupKey s aid with
  | none => .error .agentNotFound
  | some pk =>
    if verifySig pubOf pk (canonicalMessage .delete ts) sig then
      if freshOk parseTs window now ts then
        .ok ({ s with ledger := s.ledger.filter (fun r => !(r.agent_id == aid)) },
          (agentRecords s aid).length)
      else .error .staleTimestamp
    else .error .invalidSignature

/-- Lowercase hexadecimal digit characters, as produced by Python's
hexdigest. -/
def hexDigitChar (n : Nat) : Char :=
  if n < 10 then Char.ofNat (48 + n) else Char.ofNat (87 + n)

/-- Hex rendering of a byte string, two lowercase digits per byte,
modelling `hashlib.sha256(...).hexdigest()`. -/
def bytesToHex (bs : List Nat) : String :=
  String.mk (List.flatten (bs.map (fun b => [hexDigitChar (b / 16), hexDigitChar (b % 16)])))

/-- Python string slicing `s[:n]`, as used by `test_agent.py`. -/
def strTake (s : String) (n : Nat) : String := String.mk (s.data.take n)

/-- Agent id derivation from `test_agent.py` (and the server's
`get_agent_id` imported by the tests): the SHA-256 hex digest of the raw
public key bytes, sliced to its first 64 characters.  `sha256` abstracts
the digest function (32-byte output). -/
def getAgentId (sha256 : List Nat → List Nat) (pub : List Nat) : String :=
  strTake (bytesToHex (sha256 pub)) 64

/-- Modelled from the spec: Identity Generator `register`.  A fresh seed
(`priv`, from the entropy source) yields a public key, the digest-derived
agent id, and the seed's recovery phrase; the pair is inserted in the
directory, failing on a duplicate id rather than overwriting. -/
def registerOp (pubOf : List Nat → List Nat) (sha256 : List Nat → List Nat)
    (csFun : List Nat → Nat) (s : ServerState) (priv : List Nat) :
    Except ApiError (ServerState × String × List Nat × List Nat) :=
  match encodeMnemonic csFun priv with
  | none => .error .invalidPhrase
  | some phrase =>
    match lookupKey s (getAgentId sha256 (pubOf priv)) with
    | some _ => .error .directoryCollision
    | none =>
      .ok ({ s with directory := (getAgentId sha256 (pubOf priv), pubOf priv) :: s.directory },
        getAgentId sha256 (pubOf priv), pubOf priv, phrase)

/-- Modelled from the spec: `recover`.  Decodes the phrase, reconstructs
the private key (32 bytes required), rederives the public key and matches
it against the directory; on success returns the registered agent id, the
public key, and the `recovered = true` flag. -/
def recoverOp (pubOf : List Nat → List Nat) (csFun : List Nat → Nat)
    (s : ServerState) (phrase : List Nat) : Except ApiError (String × List Nat × Bool) :=
  match decodeMnemonic csFun phrase with
  | none => .error .invalidPhrase
  | some seed =>
    match edFromPrivateBytes seed with
    | none => .error .invalidPhrase
    | some seed32 =>
      match findByPublicKey s (pubOf seed32) with
      | none => .error .agentNotFound
      | some aid => .ok (aid, pubOf seed32, true)

/-- A JSON-like field value in a stats response. -/
inductive JVal where
  | num (q : Rat)
  | str (s : String)
deriving DecidableEq

/-- The stats surface, modelled from `tests/test_main.py` (which asserts
the fields `total_agents`, `total_memories` and `privacy_note`) and from
the client `test_agent.py` (which reads `total_agents`, `total_memories`
and `average_versions_per_agent`); the counts are derived on demand from
the directory and the ledger. -/
def statsOp (s : ServerState) : List (String × JVal) :=
  [("total_agents", .num s.directory.length),
   ("total_memories", .num s.ledger.length),
   ("average_versions_per_agent",
     .num (if s.directory.length = 0 then 0
       else (s.ledger.length : Rat) / (s.directory.length : Rat))),
   ("privacy_note", .str "memories are stored encrypted and the server cannot read them")]

/-- The per-agent version-set invariant: the agent's version numbers, in
ledger order, are exactly 1, 2, ..., N for N its record count. -/
def agentInv (s : ServerState) (aid : String) : Prop :=
  versionsOf s aid = List.range' 1 (versionsOf s aid).length

/-- One client-driven store: the client signs "store:" plus the payload
digest with its seed and the server applies it (a failed store leaves the
state unchanged). -/
def applyStore (pubOf : List Nat → List Nat) (hashFun : String → String) (now : Nat)
    (aid : String) (priv : List Nat) (s : ServerState) (data : String) : ServerState :=
  match storeOp pubOf hashFun now s aid data (signMsg priv (clientStoreMessage (hashFun data))) with
  | .ok (s', _) => s'
  | .error _ => s

/-- The state after the client stores each payload in turn. -/
def storeMany (pubOf : List Nat → List Nat) (hashFun : String → String) (now : Nat)
    (aid : String) (priv : List Nat) (s : ServerState) (datas : List String) : ServerState :=
  datas.foldl (applyStore pubOf hashFun now aid priv) s

/-- The sixteen lowercase hexadecimal digit characters. -/
def hexChars : List Char := "0123456789abcdef".data

theorem length_natToDigitsLE (b : Nat) : ∀ (w n : Nat), (natToDigitsLE b w n).length = w
  | 0, _ => rfl
  | w + 1, n => by simp [natToDigitsLE, length_natToDigitsLE b w]

theorem mem_natToDigitsLE_lt (b : Nat) (hb : 0 < b) :
    ∀ (w n : Nat), ∀ d ∈ natToDigitsLE b w n, d < b := by
  intro w
  induction w with
  | zero => intro n d hd; simp [natToDigitsLE] at hd
  | succ w ih =>
    intro n d hd
    simp only [natToDigitsLE, List.mem_cons] at hd
    rcases hd with h | h
    · subst h; exact Nat.mod_lt _ hb
    · exact ih _ d h

theorem digitsFromLE_natToDigitsLE (b : Nat) (hb : 1 < b) :
    ∀ (w n : Nat), n < b ^ w → digitsFromLE b (natToDigitsLE b w n) = n := by
  intro w
  induction w with
  | zero =>
    intro n hn
    simp only [pow_zero, Nat.lt_one_iff] at hn
    simp [natToDigitsLE, digitsFromLE, hn]
  | succ w ih =>
    intro n hn
    have hb0 : 0 < b := Nat.lt_of_lt_of_le Nat.one_pos (Nat.le_of_lt hb)
    have hdiv : n / b < b ^ w := by
      apply Nat.div_lt_of_lt_mul
      calc n < b ^ (w + 1) := hn
        _ = b * b ^ w := by ring
    simp only [natToDigitsLE, digitsFromLE, ih (n / b) hdiv]
    exact Nat.mod_add_div n b

theorem natToDigitsLE_digitsFromLE (b : Nat) :
    ∀ (ds : List Nat), (∀ d ∈ ds, d < b) →
      natToDigitsLE b ds.length (digitsFromLE b ds) = ds := by
  intro ds
  induction ds with
  | nil => intro _; rfl
  | cons d ds ih =>
    intro hlt
    have hd : d < b := hlt d (List.mem_cons_self d ds)
    have hb0 : 0 < b := Nat.lt_of_le_of_lt (Nat.zero_le d) hd
    have hmod : (d + b * digitsFromLE b ds) % b = d := by
      rw [Nat.add_mul_mod_self_left, Nat.mod_eq_of_lt hd]
    have hdivq : (d + b * digitsFromLE b ds) / b = digitsFromLE b ds := by
      rw [Nat.add_mul_div_left _ _ hb0, Nat.div_eq_of_lt hd, Nat.zero_add]
    simp only [List.length_cons, natToDigitsLE, digitsFromLE, hmod, hdivq]
    rw [ih (fun x hx => hlt x (List.mem_cons_of_mem d hx))]

theorem digitsFromLE_lt (b : Nat) (hb : 0 < b) :
    ∀ (ds : List Nat), (∀ d ∈ ds, d < b) → digitsFromLE b ds < b ^ ds.length := by
  intro ds
  induction ds with
  | nil => intro _; simpa [digitsFromLE] using Nat.one_pos
  | cons d ds ih =>
    intro hlt
    have hd : d < b := hlt d (List.mem_cons_self d ds)
    have ht : digitsFromLE b ds < b ^ ds.length :=
      ih (fun x hx => hlt x (List.mem_cons_of_mem d hx))
    have : d + b * digitsFromLE b ds < b * (digitsFromLE b ds + 1) := by
      have := Nat.mul_le_mul_left b (Nat.succ_le_of_lt ht)
      nlinarith
    calc d + b * digitsFromLE b ds < b * (digitsFromLE b ds + 1) := this
      _ ≤ b * b ^ ds.length := Nat.mul_le_mul_left b (Nat.succ_le_of_lt ht)
      _ = b ^ (d :: ds).length := by simp [List.length_cons]; ring

theorem mnemonic_roundtrip32 (csFun : List Nat → Nat) (seed : List Nat)
    (hlen : seed.length = 32) (hbytes : ∀ b ∈ seed, b < 256) :
    ∃ phrase, encodeMnemonic csFun seed = some phrase ∧
      phrase.length = 24 ∧
      decodeMnemonic csFun phrase = some seed ∧
      ∀ s₂, s₂ = seed → encodeMnemonic csFun s₂ = some phrase := by
  have hcs : csBits 32 = 8 := by norm_num [csBits]
  have hr : csFun seed % 2 ^ 8 < 2 ^ 8 := Nat.mod_lt _ (by norm_num)
  have hS : bytesToNat seed < 2 ^ 256 := by
    have h := digitsFromLE_lt 256 (by norm_num) seed.reverse
      (fun d hd => hbytes d (List.mem_reverse.mp hd))
    have h2 : (256 : Nat) ^ seed.reverse.length = 2 ^ 256 := by
      rw [List.length_reverse, hlen]; norm_num
    rw [h2] at h
    exact h
  set m : Nat := bytesToNat seed * 2 ^ 8 + csFun seed % 2 ^ 8 with hmdef
  have henc : encodeMnemonic csFun seed = some ((natToDigitsLE 2048 24 m).reverse) := by
    unfold encodeMnemonic
    rw [hlen]
    have hw : wordCountOfEntBytes 32 = some 24 := by decide
    rw [hw, hcs]
  refine ⟨(natToDigitsLE 2048 24 m).reverse, henc, ?_, ?_, ?_⟩
  · simp [length_natToDigitsLE]
  · have hplen : ((natToDigitsLE 2048 24 m).reverse).length = 24 := by
      simp [length_natToDigitsLE]
    have hk : entBytesOfWordCount ((natToDigitsLE 2048 24 m).reverse).length = some 32 := by
      rw [hplen]; decide
    have hall : ((natToDigitsLE 2048 24 m).reverse).all (fun d => decide (d < 2048)) = true := by
      rw [List.all_eq_true]
      intro d hd
      have := mem_natToDigitsLE_lt 2048 (by norm_num) 24 m d (List.mem_reverse.mp hd)
      simpa using this
    have hmlt : m < 2048 ^ 24 := by
      have h1 : m < 2 ^ 256 * 2 ^ 8 := by
        have : bytesToNat seed * 2 ^ 8 + csFun seed % 2 ^ 8 <
            (bytesToNat seed + 1) * 2 ^ 8 := by nlinarith
        have h2 : (bytesToNat seed + 1) * 2 ^ 8 ≤ 2 ^ 256 * 2 ^ 8 :=
          Nat.mul_le_mul_right _ (Nat.succ_le_of_lt hS)
        omega
      have h3 : (2 : Nat) ^ 256 * 2 ^ 8 = 2048 ^ 24 := by norm_num
      omega
    have hm' : digitsFromLE 2048 ((natToDigitsLE 2048 24 m).reverse).reverse = m := by
      rw [List.reverse_reverse]
      exact digitsFromLE_natToDigitsLE 2048 (by norm_num) 24 m hmlt
    have hdiv : m / 2 ^ 8 = bytesToNat seed := by
      rw [hmdef, Nat.mul_comm (bytesToNat seed) (2 ^ 8),
        Nat.mul_add_div (by norm_num), Nat.div_eq_of_lt hr, Nat.add_zero]
    have hmod : m % 2 ^ 8 = csFun seed % 2 ^ 8 := by
      rw [hmdef, Nat.mul_add_mod']
      exact Nat.mod_mod_of_dvd _ dvd_rfl
    have hseed : natToBytes 32 (m / 2 ^ 8) = seed := by
      rw [hdiv]
      unfold natToBytes bytesToNat
      have hlr : seed.reverse.length = 32 := by rw [List.length_reverse, hlen]
      have := natToDigitsLE_digitsFromLE 256 seed.reverse
        (fun d hd => hbytes d (List.mem_reverse.mp hd))
      rw [hlr] at this
      rw [this, List.reverse_reverse]
    unfold decodeMnemonic
    rw [hk]
    simp only [hall, if_true, hcs, hm', hseed, hmod, if_pos rfl]
  · intro s₂ hs₂
    rw [hs₂]
    exact henc

/-- C1: the Recovery Codec is a lossless bidirectional codec: for every
valid 32-byte Ed25519 seed, `decode (encode seed) = seed`, `encode` is
deterministic (the same seed always yields the same phrase), and for this
key width the phrase has exactly 24 words. -/
theorem recovery_codec_lossless (csFun : List Nat → Nat) (seed : List Nat)
    (hlen : seed.length = 32) (hbytes : ∀ b ∈ seed, b < 256) :
    ∃ phrase, encodeMnemonic csFun seed = some phrase ∧
      phrase.length = 24 ∧
      decodeMnemonic csFun phrase = some seed ∧
      ∀ s₂, s₂ = seed → encodeMnemonic csFun s₂ = some phrase :=
  mnemonic_roundtrip32 csFun seed hlen hbytes

/-- C1 witness: the roundtrip theorem instantiated at the all-zero 32-byte
seed and a concrete checksum digest. -/
theorem recovery_codec_lossless_witness :
    (List.replicate 32 0).length = 32 ∧
    (∃ phrase, encodeMnemonic (fun _ => 0) (List.replicate 32 0) = some phrase ∧
      phrase.length = 24 ∧
      decodeMnemonic (fun _ => 0) phrase = some (List.replicate 32 0) ∧
      ∀ s₂, s₂ = List.replicate 32 0 → encodeMnemonic (fun _ => 0) s₂ = some phrase) :=
  ⟨by decide,
    recovery_codec_lossless (fun _ => 0) (List.replicate 32 0) (by decide) (by decide)⟩

theorem decodeMnemonic_length (csFun : List Nat → Nat) (phrase seed : List Nat) (k : Nat)
    (hk : entBytesOfWordCount phrase.length = some k)
    (hdec : decodeMnemonic csFun phrase = some seed) : seed.length = k := by
  unfold decodeMnemonic at hdec
  rw [hk] at hdec
  dsimp only at hdec
  by_cases hall : phrase.all (fun d => decide (d < 2048)) = true
  · rw [if_pos hall] at hdec
    by_cases hchk : digitsFromLE 2048 phrase.reverse % 2 ^ csBits k =
        csFun (natToBytes k (digitsFromLE 2048 phrase.reverse / 2 ^ csBits k)) % 2 ^ csBits k
    · simp only [hchk, eq_self_iff_true, if_true, Option.some.injEq] at hdec
      rw [← hdec]
      simp [natToBytes, length_natToDigitsLE]
    · simp only [if_neg hchk] at hdec
      exact absurd hdec (by simp)
  · rw [if_neg hall] at hdec
    exact absurd hdec (by simp)

/-- C10: the recovery path only yields a usable identity key when the
phrase decodes to exactly 32 bytes of entropy, because the decoded bytes
are fed to `Ed25519PrivateKey.from_private_bytes`, which requires a
32-byte input; a syntactically valid phrase of 12, 15, 18 or 21 words
decodes to 16, 20, 24 or 28 bytes, so key reconstruction fails. -/
theorem short_phrase_cannot_recover_key (csFun : List Nat → Nat) (phrase seed : List Nat)
    (hw : phrase.length = 12 ∨ phrase.length = 15 ∨ phrase.length = 18 ∨ phrase.length = 21)
    (hdec : decodeMnemonic csFun phrase = some seed) :
    edFromPrivateBytes seed = none := by
  have hne : seed.length ≠ 32 := by
    rcases hw with h | h | h | h
    · have := decodeMnemonic_length csFun phrase seed 16 (by rw [h]; decide) hdec
      omega
    · have := decodeMnemonic_length csFun phrase seed 20 (by rw [h]; decide) hdec
      omega
    · have := decodeMnemonic_length csFun phrase seed 24 (by rw [h]; decide) hdec
      omega
    · have := decodeMnemonic_length csFun phrase seed 28 (by rw [h]; decide) hdec
      omega
  unfold edFromPrivateBytes
  rw [if_neg hne]

/-- C10 witness: a valid 12-word phrase decodes to 16 bytes, and key
reconstruction rejects them. -/
theorem short_phrase_cannot_recover_key_witness :
    decodeMnemonic (fun _ => 0) (List.replicate 12 0) = some (List.replicate 16 0) ∧
    edFromPrivateBytes (List.replicate 16 0) = none :=
  ⟨by decide,
    short_phrase_cannot_recover_key (fun _ => 0) (List.replicate 12 0) (List.replicate 16 0)
      (by decide) (by decide)⟩

/-- C4: the canonical message that must be signed is the operation tag, a
colon, then the nonce: store signs "store:" plus the digest of the
encrypted payload, retrieve and history both sign "retrieve:" plus the
timestamp (so one signature authorizes either), and clear signs "delete:"
plus the timestamp. -/
theorem canonical_message_scheme (h t : String) (pubOf : List Nat → List Nat)
    (parseTs : String → Option Nat) (window now : Nat) (s : ServerState)
    (aid : String) (sig : List Nat × String) (ts : String) :
    (canonicalMessage .store h = "store:" ++ h ∧
      canonicalMessage .retrieve t = "retrieve:" ++ t ∧
      canonicalMessage .delete t = "delete:" ++ t) ∧
    (clientStoreMessage h = canonicalMessage .store h ∧
      clientRetrieveMessage t = canonicalMessage .retrieve t ∧
      clientDeleteMessage t = canonicalMessage .delete t) ∧
    ((∃ r, retrieveOp pubOf parseTs window now s aid sig ts = .ok r) ↔
      (∃ hl, historyOp pubOf parseTs window now s aid sig ts = .ok hl)) := by
  refine ⟨⟨rfl, rfl, rfl⟩, ⟨rfl, rfl, rfl⟩, ?_⟩
  unfold retrieveOp historyOp
  cases hl : lookupKey s aid with
  | none => simp
  | some pk =>
    by_cases hv : verifySig pubOf pk (canonicalMessage .retrieve ts) sig = true
    · by_cases hf : freshOk parseTs window now ts = true
      · simp [hv, hf]
      · simp [hv, hf]
    · simp [hv]

/-- C5: for every auth-gated operation (store, retrieve, history, clear),
an unknown agent id yields AgentNotFound whatever the signature (the
directory lookup precedes any signature check), while a registered agent
id with a signature that does not verify against the canonical message and
the stored public key yields InvalidSignature; the two outcomes are
distinct. -/
theorem auth_error_split (pubOf : List Nat → List Nat) (hashFun : String → String)
    (parseTs : String → Option Nat) (window now : Nat) (s : ServerState)
    (aidU aidR data ts : String) (pk : List Nat) (sigU sigR : List Nat × String)
    (hu : lookupKey s aidU = none)
    (hr : lookupKey s aidR = some pk)
    (hvs : verifySig pubOf pk (canonicalMessage .store (hashFun data)) sigR = false)
    (hvr : verifySig pubOf pk (canonicalMessage .retrieve ts) sigR = false)
    (hvd : verifySig pubOf pk (canonicalMessage .delete ts) sigR = false) :
    storeOp pubOf hashFun now s aidU data sigU = .error .agentNotFound ∧
    retrieveOp pubOf parseTs window now s aidU sigU ts = .error .agentNotFound ∧
    historyOp pubOf parseTs window now s aidU sigU ts = .error .agentNotFound ∧
    clearOp pubOf parseTs window now s aidU sigU ts = .error .agentNotFound ∧
    storeOp pubOf hashFun now s aidR data sigR = .error .invalidSignature ∧
    retrieveOp pubOf parseTs window now s aidR sigR ts = .error .invalidSignature ∧
    historyOp pubOf parseTs window now s aidR sigR ts = .error .invalidSignature ∧
    clearOp pubOf parseTs window now s aidR sigR ts = .error .invalidSignature ∧
    ApiError.agentNotFound ≠ ApiError.invalidSignature := by
  unfold storeOp retrieveOp historyOp clearOp
  rw [hu, hr]
  simp [hvs, hvr, hvd]

/-- C5 witness: a two-agent scenario with one unknown id and one registered
id carrying a wrong signature. -/
theorem auth_error_split_witness :
    lookupKey ⟨[("a", [0])], []⟩ "b" = none ∧
    lookupKey ⟨[("a", [0])], []⟩ "a" = some [0] ∧
    storeOp (fun _ => [0]) (fun _ => "h") 0 ⟨[("a", [0])], []⟩ "b" "d" ([], "x")
      = .error .agentNotFound ∧
    storeOp (fun _ => [0]) (fun _ => "h") 0 ⟨[("a", [0])], []⟩ "a" "d" ([1], "x")
      = .error .invalidSignature ∧
    ApiError.agentNotFound ≠ ApiError.invalidSignature := by
  have h := auth_error_split (fun _ => [0]) (fun _ => "h") (fun _ => some 0) 0 0
    ⟨[("a", [0])], []⟩ "b" "a" "d" "t" [0] ([], "x") ([1], "x")
    (by decide) (by decide) (by decide) (by decide) (by decide)
  exact ⟨by decide, by decide, h.1, h.2.2.2.2.1, h.2.2.2.2.2.2.2.2⟩

theorem latestRecord_eq_none : ∀ (l : List MemoryRecord), latestRecord l = none → l = [] := by
  intro l h
  cases l with
  | nil => rfl
  | cons x xs =>
    unfold latestRecord at h
    cases hx : latestRecord xs with
    | none => rw [hx] at h; dsimp only at h; exact absurd h (by simp)
    | some m =>
      rw [hx] at h; dsimp only at h
      by_cases hv : m.version < x.version
      · rw [if_pos hv] at h; exact absurd h (by simp)
      · rw [if_neg hv] at h; exact absurd h (by simp)

theorem latestRecord_mem : ∀ (l : List MemoryRecord) (r : MemoryRecord),
    latestRecord l = some r → r ∈ l := by
  intro l
  induction l with
  | nil => intro r h; simp [latestRecord] at h
  | cons x xs ih =>
    intro r h
    unfold latestRecord at h
    cases hx : latestRecord xs with
    | none =>
      rw [hx] at h; dsimp only at h
      cases h; exact List.mem_cons_self x xs
    | some m =>
      rw [hx] at h; dsimp only at h
      by_cases hv : m.version < x.version
      · rw [if_pos hv] at h; cases h; exact List.mem_cons_self x xs
      · rw [if_neg hv] at h; cases h; exact List.mem_cons_of_mem x (ih _ hx)

theorem latestRecord_max : ∀ (l : List MemoryRecord) (r : MemoryRecord),
    latestRecord l = some r → ∀ x ∈ l, x.version ≤ r.version := by
  intro l
  induction l with
  | nil => intro r h; simp [latestRecord] at h
  | cons x xs ih =>
    intro r h y hy
    unfold latestRecord at h
    cases hx : latestRecord xs with
    | none =>
      rw [hx] at h; dsimp only at h
      cases h
      have hxs := latestRecord_eq_none xs hx
      subst hxs
      rcases List.mem_cons.mp hy with h1 | h1
      · subst h1; exact Nat.le_refl _
      · simp at h1
    | some m =>
      rw [hx] at h; dsimp only at h
      by_cases hv : m.version < x.version
      · rw [if_pos hv] at h
        cases h
        rcases List.mem_cons.mp hy with hyx | hyxs
        · exact le_of_eq (by rw [hyx])
        · exact Nat.le_trans (ih _ hx y hyxs) (Nat.le_of_lt hv)
      · rw [if_neg hv] at h
        cases h
        rcases List.mem_cons.mp hy with hyx | hyxs
        · rw [hyx]; exact Nat.le_of_not_lt hv
        · exact ih _ hx y hyxs

theorem latestRecord_isSome : ∀ (l : List MemoryRecord), l ≠ [] →
    ∃ r, latestRecord l = some r := by
  intro l hl
  cases hx : latestRecord l with
  | some r => exact ⟨r, rfl⟩
  | none => exact absurd (latestRecord_eq_none l hx) hl

/-- C7: a successful retrieve_latest returns the agent's MemoryRecord of
maximum version, exactly as stored in the ledger, and for an agent that
has never stored anything it returns the empty-result indicator `none`
rather than an error. -/
theorem retrieve_latest_spec (pubOf : List Nat → List Nat) (parseTs : String → Option Nat)
    (window now : Nat) (s : ServerState) (aid ts : String) (priv pk : List Nat)
    (hreg : lookupKey s aid = some pk) (hkey : pubOf priv = pk)
    (hf : freshOk parseTs window now ts = true) :
    retrieveOp pubOf parseTs window now s aid (signMsg priv (clientRetrieveMessage ts)) ts
      = .ok (latestRecord (agentRecords s aid)) ∧
    (agentRecords s aid = [] →
      retrieveOp pubOf parseTs window now s aid (signMsg priv (clientRetrieveMessage ts)) ts
        = .ok none) ∧
    (∀ r, latestRecord (agentRecords s aid) = some r →
      r ∈ s.ledger ∧ r.agent_id = aid ∧ ∀ x ∈ agentRecords s aid, x.version ≤ r.version) ∧
    (agentRecords s aid ≠ [] → ∃ r, latestRecord (agentRecords s aid) = some r) := by
  have hok : retrieveOp pubOf parseTs window now s aid
      (signMsg priv (clientRetrieveMessage ts)) ts
      = .ok (latestRecord (agentRecords s aid)) := by
    unfold retrieveOp
    rw [hreg]
    simp [verifySig, signMsg, clientRetrieveMessage, canonicalMessage, hkey, hf]
  refine ⟨hok, ?_, ?_, latestRecord_isSome _⟩
  · intro hempty
    rw [hok, hempty]
    rfl
  · intro r hr
    have hmem := latestRecord_mem _ r hr
    have hfilter := List.mem_filter.mp hmem
    exact ⟨hfilter.1, by simpa using hfilter.2, latestRecord_max _ r hr⟩

/-- C7 witness: one agent with two stored records; retrieve returns the
version-2 record, and an unknown-history agent state returns `none`. -/
theorem retrieve_latest_spec_witness :
    retrieveOp (fun x => x) (fun _ => some 0) 0 0
        ⟨[("a", [0])], [⟨"a", 1, "d1", 0⟩, ⟨"a", 2, "d2", 0⟩]⟩ "a"
        (signMsg [0] (clientRetrieveMessage "t")) "t"
      = .ok (some ⟨"a", 2, "d2", 0⟩) ∧
    retrieveOp (fun x => x) (fun _ => some 0) 0 0 ⟨[("a", [0])], []⟩ "a"
        (signMsg [0] (clientRetrieveMessage "t")) "t" = .ok none := by
  have h₁ := retrieve_latest_spec (fun x => x) (fun _ => some 0) 0 0
    ⟨[("a", [0])], [⟨"a", 1, "d1", 0⟩, ⟨"a", 2, "d2", 0⟩]⟩ "a" "t" [0] [0]
    (by decide) (by decide) (by decide)
  have h₂ := retrieve_latest_spec (fun x => x) (fun _ => some 0) 0 0
    ⟨[("a", [0])], []⟩ "a" "t" [0] [0] (by decide) (by decide) (by decide)
  exact ⟨h₁.1, h₂.2.1 (by decide)⟩

theorem filter_keep_of_clear (l : List MemoryRecord) (aid : String) :
    (l.filter (fun r => !(r.agent_id == aid))).filter (fun r => r.agent_id == aid) = [] := by
  rw [List.filter_filter]
  have h : ∀ r : MemoryRecord, ((r.agent_id == aid) && !(r.agent_id == aid)) = false := by
    intro r; cases hr : (r.agent_id == aid) <;> simp [hr]
  simp [h]

/-- C6: a successful clear deletes all of the agent's MemoryRecords and
reports exactly how many, leaves the agent's directory entry in place, and
resets versioning: a subsequent history returns zero records and the next
successful store is assigned version 1 again. -/
theorem clear_deletes_and_resets (pubOf : List Nat → List Nat) (hashFun : String → String)
    (parseTs : String → Option Nat) (window now now₂ now₃ : Nat) (s : ServerState)
    (aid data ts ts₂ : String) (priv pk : List Nat)
    (hreg : lookupKey s aid = some pk) (hkey : pubOf priv = pk)
    (hf : freshOk parseTs window now ts = true)
    (hf₂ : freshOk parseTs window now₂ ts₂ = true) :
    ∃ s', clearOp pubOf parseTs window now s aid (signMsg priv (clientDeleteMessage ts)) ts
        = .ok (s', (agentRecords s aid).length) ∧
      agentRecords s' aid = [] ∧
      lookupKey s' aid = some pk ∧
      historyOp pubOf parseTs window now₂ s' aid (signMsg priv (clientRetrieveMessage ts₂)) ts₂
        = .ok (0, []) ∧
      ∃ s'', storeOp pubOf hashFun now₃ s' aid data
          (signMsg priv (clientStoreMessage (hashFun data))) = .ok (s'', 1) := by
  refine ⟨{ s with ledger := s.ledger.filter (fun r => !(r.agent_id == aid)) }, ?_, ?_, ?_, ?_, ?_⟩
  · unfold clearOp
    rw [hreg]
    simp [verifySig, signMsg, clientDeleteMessage, canonicalMessage, hkey, hf]
  · exact filter_keep_of_clear s.ledger aid
  · exact hreg
  · unfold historyOp
    rw [show lookupKey { s with ledger := s.ledger.filter (fun r => !(r.agent_id == aid)) } aid
      = some pk from hreg]
    have hrec : agentRecords
        { s with ledger := s.ledger.filter (fun r => !(r.agent_id == aid)) } aid = [] :=
      filter_keep_of_clear s.ledger aid
    simp [verifySig, signMsg, clientRetrieveMessage, canonicalMessage, hkey, hf₂, hrec,
      sortByVersion]
  · refine ⟨⟨s.directory,
      s.ledger.filter (fun r => !(r.agent_id == aid)) ++ [⟨aid, 1, data, now₃⟩]⟩, ?_⟩
    unfold storeOp
    rw [show lookupKey { s with ledger := s.ledger.filter (fun r => !(r.agent_id == aid)) } aid
      = some pk from hreg]
    have hrec : agentRecords
        { s with ledger := s.ledger.filter (fun r => !(r.agent_id == aid)) } aid = [] :=
      filter_keep_of_clear s.ledger aid
    have hmax : maxVersion
        { s with ledger := s.ledger.filter (fun r => !(r.agent_id == aid)) } aid = 0 := by
      unfold maxVersion versionsOf
      rw [hrec]
      rfl
    simp [verifySig, signMsg, clientStoreMessage, canonicalMessage, hkey, hmax]

/-- C6 witness: a one-agent state holding two records; clear reports 2
deleted, history is then empty, and the next store is version 1. -/
theorem clear_deletes_and_resets_witness :
    ∃ s', clearOp (fun x => x) (fun _ => some 0) 0 0
        ⟨[("a", [0])], [⟨"a", 1, "d1", 0⟩, ⟨"a", 2, "d2", 0⟩]⟩ "a"
        (signMsg [0] (clientDeleteMessage "t")) "t"
        = .ok (s', (agentRecords ⟨[("a", [0])], [⟨"a", 1, "d1", 0⟩, ⟨"a", 2, "d2", 0⟩]⟩ "a").length) ∧
      agentRecords s' "a" = [] ∧
      lookupKey s' "a" = some [0] ∧
      historyOp (fun x => x) (fun _ => some 0) 0 0 s' "a"
        (signMsg [0] (clientRetrieveMessage "t")) "t" = .ok (0, []) ∧
      ∃ s'', storeOp (fun x => x) (fun _ => "h") 0 s' "a" "d3"
          (signMsg [0] (clientStoreMessage "h")) = .ok (s'', 1) :=
  clear_deletes_and_resets (fun x => x) (fun _ => "h") (fun _ => some 0) 0 0 0 0
    ⟨[("a", [0])], [⟨"a", 1, "d1", 0⟩, ⟨"a", 2, "d2", 0⟩]⟩ "a" "d3" "t" "t" [0] [0]
    (by decide) (by decide) (by decide) (by decide)

theorem range'_snoc (s n : Nat) : List.range' s (n + 1) = List.range' s n ++ [s + n] := by
  have h := @List.range'_concat 1 s n
  simpa using h

theorem foldr_max_range' : ∀ (n s a : Nat),
    List.foldr max a (List.range' s (n + 1)) = max a (s + n) := by
  intro n
  induction n with
  | zero => intro s a; simp [List.range'_succ]; omega
  | succ n ih =>
    intro s a
    rw [List.range'_succ]
    simp only [List.foldr_cons, ih (s + 1) a]
    omega

theorem maxVersion_of_range (s : ServerState) (aid : String) (n : Nat)
    (h : versionsOf s aid = List.range' 1 n) : maxVersion s aid = n := by
  unfold maxVersion
  rw [h]
  cases n with
  | zero => rfl
  | succ n => rw [foldr_max_range' n 1 0]; omega

theorem versionsOf_append_self (s : ServerState) (aid data : String) (v t : Nat) :
    versionsOf { s with ledger := s.ledger ++ [⟨aid, v, data, t⟩] } aid
      = versionsOf s aid ++ [v] := by
  unfold versionsOf agentRecords
  rw [List.filter_append]
  simp

theorem versionsOf_append_other (s : ServerState) (aid aid' data : String) (v t : Nat)
    (h : aid ≠ aid') :
    versionsOf { s with ledger := s.ledger ++ [⟨aid, v, data, t⟩] } aid'
      = versionsOf s aid' := by
  unfold versionsOf agentRecords
  rw [List.filter_append]
  simp [h]

theorem storeOp_client (pubOf : List Nat → List Nat) (hashFun : String → String) (now : Nat)
    (s : ServerState) (aid data : String) (priv pk : List Nat)
    (hreg : lookupKey s aid = some pk) (hkey : pubOf priv = pk) :
    storeOp pubOf hashFun now s aid data (signMsg priv (clientStoreMessage (hashFun data)))
      = .ok ({ s with ledger := s.ledger ++ [⟨aid, maxVersion s aid + 1, data, now⟩] },
        maxVersion s aid + 1) := by
  unfold storeOp
  rw [hreg]
  simp [verifySig, signMsg, clientStoreMessage, canonicalMessage, hkey]

theorem storeMany_versions (pubOf : List Nat → List Nat) (hashFun : String → String)
    (now : Nat) (aid : String) (priv pk : List Nat) (hkey : pubOf priv = pk) :
    ∀ (datas : List String) (s : ServerState) (n : Nat),
      lookupKey s aid = some pk →
      versionsOf s aid = List.range' 1 n →
      lookupKey (storeMany pubOf hashFun now aid priv s datas) aid = some pk ∧
      versionsOf (storeMany pubOf hashFun now aid priv s datas) aid
        = List.range' 1 (n + datas.length) := by
  intro datas
  induction datas with
  | nil => intro s n hreg hv; exact ⟨hreg, by simpa using hv⟩
  | cons d ds ih =>
    intro s n hreg hv
    have hstep := storeOp_client pubOf hashFun now s aid d priv pk hreg hkey
    have hmax := maxVersion_of_range s aid n hv
    have hunf : storeMany pubOf hashFun now aid priv s (d :: ds)
        = storeMany pubOf hashFun now aid priv
          { s with ledger := s.ledger ++ [⟨aid, maxVersion s aid + 1, d, now⟩] } ds := by
      unfold storeMany
      simp [List.foldl_cons, applyStore, hstep]
    rw [hunf, hmax]
    have hreg' : lookupKey { s with ledger := s.ledger ++ [⟨aid, n + 1, d, now⟩] } aid
        = some pk := hreg
    have hv' : versionsOf { s with ledger := s.ledger ++ [⟨aid, n + 1, d, now⟩] } aid
        = List.range' 1 (n + 1) := by
      rw [versionsOf_append_self, hv, range'_snoc]
      simp [Nat.add_comm]
    have hrec := ih { s with ledger := s.ledger ++ [⟨aid, n + 1, d, now⟩] } (n + 1) hreg' hv'
    have harith : n + 1 + ds.length = n + (d :: ds).length := by
      simp [List.length_cons]; omega
    rw [harith] at hrec
    exact hrec

theorem pairwise_le_range' : ∀ (n s : Nat),
    List.Pairwise (fun a b => a ≤ b) (List.range' s n) := by
  intro n
  induction n with
  | zero => intro s; simp
  | succ n ih =>
    intro s
    rw [List.range'_succ]
    refine List.Pairwise.cons ?_ (ih (s + 1))
    intro b hb
    have := List.mem_range'_1.mp hb
    omega

theorem insertByVersion_of_le (r : MemoryRecord) (l : List MemoryRecord)
    (h : ∀ x ∈ l, r.version ≤ x.version) : insertByVersion r l = r :: l := by
  cases l with
  | nil => rfl
  | cons x xs =>
    unfold insertByVersion
    rw [if_pos (h x (List.mem_cons_self x xs))]

theorem sortByVersion_sorted_id : ∀ (l : List MemoryRecord),
    List.Pairwise (fun a b => a.version ≤ b.version) l → sortByVersion l = l := by
  intro l
  induction l with
  | nil => intro _; rfl
  | cons x xs ih =>
    intro hp
    have hx := List.pairwise_cons.mp hp
    unfold sortByVersion
    rw [ih hx.2, insertByVersion_of_le x xs hx.1]

theorem agentRecords_clear_other (l : List MemoryRecord) (b b' : String) (h : b' ≠ b) :
    (l.filter (fun r => !(r.agent_id == b))).filter (fun r => r.agent_id == b')
      = l.filter (fun r => r.agent_id == b') := by
  rw [List.filter_filter]
  have hpt : ∀ r : MemoryRecord,
      ((r.agent_id == b') && !(r.agent_id == b)) = (r.agent_id == b') := by
    intro r
    by_cases hr : r.agent_id = b'
    · rw [hr]
      simp [h]
    · simp [hr]
  simp only [hpt]

/-- C2: starting from a registered agent with no records, N correctly
signed stores yield version numbers exactly 1, 2, ..., N, in order; history
then returns exactly N records in ascending version order together with
their count; and store and clear each preserve the per-agent version-set
invariant for every agent. -/
theorem version_history_invariant (pubOf : List Nat → List Nat) (hashFun : String → String)
    (parseTs : String → Option Nat) (window now now₂ : Nat) (s : ServerState)
    (aid ts : String) (priv pk : List Nat) (datas : List String)
    (hreg : lookupKey s aid = some pk) (hkey : pubOf priv = pk)
    (hempty : versionsOf s aid = [])
    (hf : freshOk parseTs window now₂ ts = true) :
    versionsOf (storeMany pubOf hashFun now aid priv s datas) aid
      = List.range' 1 datas.length ∧
    (∃ recs, historyOp pubOf parseTs window now₂ (storeMany pubOf hashFun now aid priv s datas)
        aid (signMsg priv (clientRetrieveMessage ts)) ts = .ok (datas.length, recs) ∧
      recs.map (fun r => r.version) = List.range' 1 datas.length) ∧
    (∀ (s₁ s₂ : ServerState) (b b' d : String) (sig : List Nat × String) (v n' : Nat),
      agentInv s₁ b' → storeOp pubOf hashFun n' s₁ b d sig = .ok (s₂, v) → agentInv s₂ b') ∧
    (∀ (s₁ s₂ : ServerState) (b b' ts' : String) (sig : List Nat × String) (c n' : Nat),
      agentInv s₁ b' → clearOp pubOf parseTs window n' s₁ b sig ts' = .ok (s₂, c) →
      agentInv s₂ b') := by
  have hmain := storeMany_versions pubOf hashFun now aid priv pk hkey datas s 0 hreg
    (by rw [hempty]; rfl)
  have hver : versionsOf (storeMany pubOf hashFun now aid priv s datas) aid
      = List.range' 1 datas.length := by
    have := hmain.2
    rwa [Nat.zero_add] at this
  refine ⟨hver, ?_, ?_, ?_⟩
  · have hlook := hmain.1
    have hmapv : (agentRecords (storeMany pubOf hashFun now aid priv s datas) aid).map
        (fun r => r.version) = List.range' 1 datas.length := hver
    have hpw : List.Pairwise (fun a b : MemoryRecord => a.version ≤ b.version)
        (agentRecords (storeMany pubOf hashFun now aid priv s datas) aid) := by
      have hp : List.Pairwise (fun a b => a ≤ b)
          ((agentRecords (storeMany pubOf hashFun now aid priv s datas) aid).map
            (fun r => r.version)) := by
        rw [hmapv]; exact pairwise_le_range' datas.length 1
      exact List.pairwise_map.mp hp
    have hsort := sortByVersion_sorted_id _ hpw
    have hlen : (agentRecords (storeMany pubOf hashFun now aid priv s datas) aid).length
        = datas.length := by
      have := congrArg List.length hmapv
      simpa using this
    refine ⟨agentRecords (storeMany pubOf hashFun now aid priv s datas) aid, ?_, hmapv⟩
    unfold historyOp
    rw [hlook]
    simp [verifySig, signMsg, clientRetrieveMessage, canonicalMessage, hkey, hf, hsort, hlen]
  · intro s₁ s₂ b b' d sig v n' hinv hstore
    unfold storeOp at hstore
    cases hl : lookupKey s₁ b with
    | none => rw [hl] at hstore; exact absurd hstore (by simp)
    | some pk' =>
      rw [hl] at hstore; dsimp only at hstore
      by_cases hvf : verifySig pubOf pk' (canonicalMessage .store (hashFun d)) sig = true
      · rw [if_pos hvf] at hstore
        cases hstore
        by_cases hbb : b = b'
        · subst hbb
          unfold agentInv at hinv ⊢
          rw [versionsOf_append_self, hinv]
          have hmax := maxVersion_of_range s₁ b _ hinv
          rw [hmax]
          have h1 : (versionsOf s₁ b).length + 1 = 1 + (versionsOf s₁ b).length := by omega
          rw [h1, ← range'_snoc]
          simp
        · unfold agentInv at hinv ⊢
          rw [versionsOf_append_other _ _ _ _ _ _ hbb]
          exact hinv
      · rw [if_neg hvf] at hstore
        exact absurd hstore (by simp)
  · intro s₁ s₂ b b' ts' sig c n' hinv hclear
    unfold clearOp at hclear
    cases hl : lookupKey s₁ b with
    | none => rw [hl] at hclear; exact absurd hclear (by simp)
    | some pk' =>
      rw [hl] at hclear; dsimp only at hclear
      by_cases hvf : verifySig pubOf pk' (canonicalMessage .delete ts') sig = true
      · rw [if_pos hvf] at hclear
        by_cases hfr : freshOk parseTs window n' ts' = true
        · rw [if_pos hfr] at hclear
          cases hclear
          by_cases hbb : b' = b
          · subst hbb
            unfold agentInv versionsOf at hinv ⊢
            have : agentRecords { s₁ with
                ledger := s₁.ledger.filter (fun r => !(r.agent_id == b')) } b' = [] :=
              filter_keep_of_clear s₁.ledger b'
            rw [this]
            rfl
          · unfold agentInv versionsOf at hinv ⊢
            have : agentRecords { s₁ with
                ledger := s₁.ledger.filter (fun r => !(r.agent_id == b)) } b'
                = agentRecords s₁ b' :=
              agentRecords_clear_other s₁.ledger b b' hbb
            rw [this]
            exact hinv
        · rw [if_neg hfr] at hclear
          exact absurd hclear (by simp)
      · rw [if_neg hvf] at hclear
        exact absurd hclear (by simp)

/-- C2 witness: two stores on a fresh agent produce versions 1 and 2 and a
two-record history in order. -/
theorem version_history_invariant_witness :
    lookupKey ⟨[("a", [0])], []⟩ "a" = some [0] ∧
    versionsOf (storeMany (fun x => x) (fun _ => "h") 0 "a" [0] ⟨[("a", [0])], []⟩
      ["d1", "d2"]) "a" = List.range' 1 2 ∧
    (∃ recs, historyOp (fun x => x) (fun _ => some 0) 0 0
        (storeMany (fun x => x) (fun _ => "h") 0 "a" [0] ⟨[("a", [0])], []⟩ ["d1", "d2"])
        "a" (signMsg [0] (clientRetrieveMessage "t")) "t" = .ok (2, recs) ∧
      recs.map (fun r => r.version) = List.range' 1 2) := by
  have h := version_history_invariant (fun x => x) (fun _ => "h") (fun _ => some 0) 0 0 0
    ⟨[("a", [0])], []⟩ "a" "t" [0] [0] ["d1", "d2"]
    (by decide) (by decide) (by decide) (by decide)
  exact ⟨by decide, h.1, h.2.1⟩

theorem length_hexData : ∀ (bs : List Nat),
    (List.flatten (bs.map (fun b => [hexDigitChar (b / 16), hexDigitChar (b % 16)]))).length
      = 2 * bs.length := by
  intro bs
  induction bs with
  | nil => rfl
  | cons b bs ih =>
    simp only [List.map_cons, List.flatten_cons, List.length_append, ih, List.length_cons]
    simp
    omega

theorem length_bytesToHex (bs : List Nat) : (bytesToHex bs).length = 2 * bs.length :=
  length_hexData bs

theorem strTake_of_le (s : String) (n : Nat) (h : s.data.length ≤ n) : strTake s n = s := by
  unfold strTake
  rw [List.take_of_length_le h]

theorem hexDigitChar_mem (n : Nat) (h : n < 16) : hexDigitChar n ∈ hexChars := by
  interval_cases n <;> decide

theorem mem_bytesToHex (bs : List Nat) (hb : ∀ b ∈ bs, b < 256) :
    ∀ c ∈ (bytesToHex bs).data, c ∈ hexChars := by
  intro c hc
  have hc' : c ∈ List.flatten
      (bs.map (fun b => [hexDigitChar (b / 16), hexDigitChar (b % 16)])) := hc
  obtain ⟨l, hl, hcl⟩ := List.mem_flatten.mp hc'
  obtain ⟨b, hbbs, hbl⟩ := List.mem_map.mp hl
  rw [← hbl] at hcl
  have hblt := hb b hbbs
  have hdiv : b / 16 < 16 := by omega
  have hmod : b % 16 < 16 := Nat.mod_lt _ (by norm_num)
  rcases List.mem_cons.mp hcl with h1 | h1
  · rw [h1]; exact hexDigitChar_mem _ hdiv
  · rcases List.mem_cons.mp h1 with h2 | h2
    · rw [h2]; exact hexDigitChar_mem _ hmod
    · simp at h2

/-- C3: for every registered agent, the agent id is the SHA-256 digest of
the public key bytes rendered as lowercase hex of the full 64-character
digest width (the slice to 64 characters truncates nothing), registration
preserves the directory invariant that every entry's id is the digest of
its key, and recovering from the registration's phrase returns the same
agent id and public key with recovered = true. -/
theorem agent_id_digest_recovery (pubOf sha256 : List Nat → List Nat)
    (csFun : List Nat → Nat) (s s' : ServerState) (priv pub phrase : List Nat) (aid : String)
    (hpriv : priv.length = 32) (hprivB : ∀ b ∈ priv, b < 256)
    (hsha : (sha256 (pubOf priv)).length = 32)
    (hshaB : ∀ b ∈ sha256 (pubOf priv), b < 256)
    (hreg : registerOp pubOf sha256 csFun s priv = .ok (s', aid, pub, phrase))
    (hdir : ∀ p ∈ s.directory, p.1 = getAgentId sha256 p.2) :
    aid = bytesToHex (sha256 pub) ∧
    aid.length = 64 ∧
    (∀ c ∈ aid.data, c ∈ hexChars) ∧
    (∀ p ∈ s'.directory, p.1 = getAgentId sha256 p.2) ∧
    recoverOp pubOf csFun s' phrase = .ok (aid, pub, true) := by
  obtain ⟨ph, henc, hplen, hdec, _⟩ := mnemonic_roundtrip32 csFun priv hpriv hprivB
  unfold registerOp at hreg
  rw [henc] at hreg
  dsimp only at hreg
  cases hl : lookupKey s (getAgentId sha256 (pubOf priv)) with
  | some q => rw [hl] at hreg; exact absurd hreg (by simp)
  | none =>
    rw [hl] at hreg
    dsimp only at hreg
    cases hreg
    have hid : getAgentId sha256 (pubOf priv) = bytesToHex (sha256 (pubOf priv)) := by
      unfold getAgentId
      apply strTake_of_le
      have := length_bytesToHex (sha256 (pubOf priv))
      have hd : (bytesToHex (sha256 (pubOf priv))).data.length
          = (bytesToHex (sha256 (pubOf priv))).length := rfl
      omega
    refine ⟨hid, ?_, ?_, ?_, ?_⟩
    · rw [hid, length_bytesToHex, hsha]
    · rw [hid]
      exact mem_bytesToHex _ hshaB
    · intro p hp
      rcases List.mem_cons.mp hp with h1 | h1
      · rw [h1]
      · exact hdir p h1
    · unfold recoverOp
      rw [hdec]
      dsimp only
      unfold edFromPrivateBytes
      rw [if_pos hpriv]
      dsimp only
      have hfind : findByPublicKey
          { s with directory := (getAgentId sha256 (pubOf priv), pubOf priv) :: s.directory }
          (pubOf priv) = some (getAgentId sha256 (pubOf priv)) := by
        unfold findByPublicKey
        rw [List.find?_cons_of_pos _ (by simp)]
        rfl
      rw [hfind]

/-- C3 witness: a concrete registration in the empty directory followed by
recovery from the returned phrase. -/
theorem agent_id_digest_recovery_witness :
    (String.mk (List.replicate 64 '0')).length = 64 ∧
    recoverOp (fun x => x) (fun _ => 0)
        ⟨[(String.mk (List.replicate 64 '0'), List.replicate 32 0)], []⟩ (List.replicate 24 0)
      = .ok (String.mk (List.replicate 64 '0'), List.replicate 32 0, true) := by
  have h := agent_id_digest_recovery (fun x => x) (fun _ => List.replicate 32 0) (fun _ => 0)
    ⟨[], []⟩ ⟨[(String.mk (List.replicate 64 '0'), List.replicate 32 0)], []⟩
    (List.replicate 32 0) (List.replicate 32 0) (List.replicate 24 0)
    (String.mk (List.replicate 64 '0'))
    (by decide) (by decide) (by decide) (by decide) (by rfl) (by simp)
  exact ⟨h.2.1, h.2.2.2.2⟩

/-- C8 counterexample: the stats response carries no field named
"total_memory_records"; the record count is published under the name
"total_memories", which is the name the repository's tests assert and the
client reads. -/
theorem stats_no_total_memory_records_field :
    (statsOp ⟨[], []⟩).lookup "total_memory_records" = none ∧
    (statsOp ⟨[], []⟩).lookup "total_memories" = some (JVal.num 0) := by
  constructor
  · rfl
  · rfl

/-- C8 amended: stats takes no input beyond the state, never fails (it is
total), and returns total_agents equal to the number of Agent rows,
total_memories equal to the number of MemoryRecords, and a derived
average_versions_per_agent satisfying average times total_agents equals
total_memories whenever at least one agent exists. -/
theorem stats_counts (s : ServerState) :
    (statsOp s).lookup "total_agents" = some (.num s.directory.length) ∧
    (statsOp s).lookup "total_memories" = some (.num s.ledger.length) ∧
    (∃ q : Rat, (statsOp s).lookup "average_versions_per_agent" = some (.num q) ∧
      (s.directory.length ≠ 0 → q * s.directory.length = s.ledger.length)) := by
  refine ⟨rfl, rfl, ⟨_, rfl, ?_⟩⟩
  intro h
  rw [if_neg h]
  exact div_mul_cancel₀ _ (Nat.cast_ne_zero.mpr h)

/-- C9: for timestamp-nonced requests (retrieve, history, clear) the
signature is accepted only when the timestamp parses to a point in time
within the freshness window of the server's current time; inside the
window a captured signed request replays verbatim at a later server time,
and outside the window the request is never accepted. -/
theorem replay_window (pubOf : List Nat → List Nat) (parseTs : String → Option Nat)
    (window now now₂ : Nat) (s : ServerState) (aid ts tsBad : String)
    (sig : List Nat × String) (r : Option MemoryRecord)
    (hstale : freshOk parseTs window now tsBad = false)
    (hok : retrieveOp pubOf parseTs window now s aid sig ts = .ok r)
    (hfresh₂ : freshOk parseTs window now₂ ts = true) :
    (∃ t, parseTs ts = some t ∧ now ≤ t + window ∧ t ≤ now + window) ∧
    (∀ x, retrieveOp pubOf parseTs window now s aid sig tsBad ≠ .ok x) ∧
    (∀ x, historyOp pubOf parseTs window now s aid sig tsBad ≠ .ok x) ∧
    (∀ x, clearOp pubOf parseTs window now s aid sig tsBad ≠ .ok x) ∧
    retrieveOp pubOf parseTs window now₂ s aid sig ts = .ok r := by
  have hfresh_iff : ∀ (n : Nat) (u : String), freshOk parseTs window n u = true ↔
      ∃ t, parseTs u = some t ∧ n ≤ t + window ∧ t ≤ n + window := by
    intro n u
    unfold freshOk
    cases parseTs u <;> simp
  cases hl : lookupKey s aid with
  | none =>
    unfold retrieveOp at hok
    rw [hl] at hok
    exact absurd hok (by simp)
  | some pk =>
    unfold retrieveOp at hok
    rw [hl] at hok
    dsimp only at hok
    by_cases hvf : verifySig pubOf pk (canonicalMessage .retrieve ts) sig = true
    · rw [if_pos hvf] at hok
      by_cases hfr : freshOk parseTs window now ts = true
      · rw [if_pos hfr] at hok
        refine ⟨(hfresh_iff now ts).mp hfr, ?_, ?_, ?_, ?_⟩
        · intro x
          unfold retrieveOp
          rw [hl]
          dsimp only
          by_cases hvb : verifySig pubOf pk (canonicalMessage .retrieve tsBad) sig = true
          · rw [if_pos hvb, if_neg (by rw [hstale]; simp)]
            simp
          · rw [if_neg hvb]
            simp
        · intro x
          unfold historyOp
          rw [hl]
          dsimp only
          by_cases hvb : verifySig pubOf pk (canonicalMessage .retrieve tsBad) sig = true
          · rw [if_pos hvb, if_neg (by rw [hstale]; simp)]
            simp
          · rw [if_neg hvb]
            simp
        · intro x
          unfold clearOp
          rw [hl]
          dsimp only
          by_cases hvb : verifySig pubOf pk (canonicalMessage .delete tsBad) sig = true
          · rw [if_pos hvb, if_neg (by rw [hstale]; simp)]
            simp
          · rw [if_neg hvb]
            simp
        · unfold retrieveOp
          rw [hl]
          dsimp only
          rw [if_pos hvf, if_pos hfresh₂]
          exact hok
      · rw [if_neg hfr] at hok
        exact absurd hok (by simp)
    · rw [if_neg hvf] at hok
      exact absurd hok (by simp)

/-- C9 witness: a request timestamped inside the window succeeds at two
server times inside the window, while a timestamp outside the window (or
unparsable) is never accepted. -/
theorem replay_window_witness :
    freshOk (fun x => if x = "t" then some 100 else if x = "old" then some 0 else none)
      5 100 "old" = false ∧
    retrieveOp (fun x => x)
      (fun x => if x = "t" then some 100 else if x = "old" then some 0 else none)
      5 100 ⟨[("a", [0])], []⟩ "a" ([0], "retrieve:t") "t" = .ok none ∧
    retrieveOp (fun x => x)
      (fun x => if x = "t" then some 100 else if x = "old" then some 0 else none)
      5 104 ⟨[("a", [0])], []⟩ "a" ([0], "retrieve:t") "t" = .ok none ∧
    (∀ x, retrieveOp (fun x => x)
      (fun x => if x = "t" then some 100 else if x = "old" then some 0 else none)
      5 100 ⟨[("a", [0])], []⟩ "a" ([0], "retrieve:t") "old" ≠ .ok x) := by
  have h := replay_window (fun x => x)
    (fun x => if x = "t" then some 100 else if x = "old" then some 0 else none)
    5 100 104 ⟨[("a", [0])], []⟩ "a" "t" "old" ([0], "retrieve:t") none
    (by decide) (by rfl) (by decide)
  exact ⟨by decide, by rfl, h.2.2.2.2, h.2.1⟩

end AgentMemory
